import Mathlib

/-!
Verification of the `fix_file_structure` transform of `emergency_fix.py`.

The program is a single-pass text rewriter for source files: it classifies
each line (header comment, package declaration, import, body), rewrites a
fixed whitelist of logging-call patterns in the body, reconciles the import
set, and re-emits the file in a normalized layout.

Strings are modelled as lists of characters (`Str`), which matches Python's
text strings for the inputs at hand; every definition below is a direct
transcription of the corresponding Python code.
-/

set_option maxHeartbeats 1000000

abbrev Str := List Char

def str (s : String) : Str := s.data

def nl : Char := '\n'

/-- Python `str.strip()` whitespace set (the ASCII part, which is all the
program ever strips). -/
def isPySpace (c : Char) : Bool :=
  c = ' ' || c = '\t' || c = '\n' || c = '\r' || c = '\x0b' || c = '\x0c'

/-- Python `line.strip()`. -/
def stripL (s : Str) : Str :=
  ((s.dropWhile isPySpace).reverse.dropWhile isPySpace).reverse

/-- Python `s.startswith(p)`: `startsWithL p s` is true iff `p` is a prefix
of `s`. -/
def startsWithL : Str → Str → Bool
  | [], _ => true
  | _ :: _, [] => false
  | a :: ps, b :: ss => a == b && startsWithL ps ss

/-- Python `p in s` (substring occurrence). -/
def occursL (p : Str) : Str → Bool
  | [] => startsWithL p []
  | c :: rest => startsWithL p (c :: rest) || occursL p rest

/-- Scanning loop of Python `s.replace(p, r)`; the fuel argument only makes
the recursion structural, `fuel ≥ s.length` always holds at every call. -/
def replaceLAux : Nat → Str → Str → Str → Str
  | 0, s, _, _ => s
  | _ + 1, [], _, _ => []
  | fuel + 1, c :: rest, p, r =>
    if p ≠ [] ∧ startsWithL p (c :: rest) = true then
      r ++ replaceLAux fuel ((c :: rest).drop p.length) p r
    else
      c :: replaceLAux fuel rest p r

/-- Python `s.replace(p, r)`: leftmost, non-overlapping replacement of every
occurrence of `p` in `s` by `r` (for the nonempty patterns the program uses). -/
def replaceL (s p r : Str) : Str := replaceLAux s.length s p r

/-- `tailsOk hh q` checks that no nonempty suffix of `q` starts with `hh` or
is itself a prefix of `hh`: then no occurrence of `hh` can begin inside `q`,
whatever follows it, so a replace scan copies `q` through verbatim. -/
def tailsOk (hh : Str) : Str → Bool
  | [] => true
  | c :: t => !startsWithL hh (c :: t) && (!startsWithL (c :: t) hh && tailsOk hh t)

/-- Python `readlines()` helper: accumulate characters of the current line
(in reverse) and cut after every newline. -/
def splitLinesAux : Str → Str → List Str
  | [], acc => if acc.isEmpty then [] else [acc.reverse]
  | c :: rest, acc =>
    if c = nl then (c :: acc).reverse :: splitLinesAux rest []
    else splitLinesAux rest (c :: acc)

/-- Python `f.readlines()` on the file's text: lines keep their trailing
newline; a final unterminated line is kept as well. -/
def splitLines (s : Str) : List Str := splitLinesAux s []

/-- A well-formed text line: it ends with a newline and contains no other
newline (every line of `splitLines` except possibly the last has this
shape). -/
def wfLineB : Str → Bool
  | [] => false
  | c :: rest => if rest.isEmpty then c == nl else (c != nl) && wfLineB rest

def joinL (L : List Str) : Str := L.foldr (fun a b => a ++ b) []

/-! ### Line classification (step 1 of `fix_file_structure`) -/

/-- `stripped.startswith("package ")`. -/
def isPkgB (line : Str) : Bool := startsWithL (str "package ") (stripL line)

/-- `stripped.startswith("import ")`. -/
def isImpB (line : Str) : Bool := startsWithL (str "import ") (stripL line)

/-- `stripped.startswith("//") or stripped.startswith("/*") or
stripped.startswith("*") or not stripped`. -/
def isHdrB (line : Str) : Bool :=
  startsWithL (str "//") (stripL line) || startsWithL (str "/*") (stripL line)
    || startsWithL (str "*") (stripL line) || (stripL line).isEmpty

/-- The per-file parsing state of `fix_file_structure`:
`package_line`, `imports` (a set, modelled as a duplicate-free list),
`other_lines`, `header_comments`, `package_found`. -/
structure ParseSt where
  packageLine : Option Str
  imports : List Str
  other : List Str
  header : List Str
  packageFound : Bool
deriving DecidableEq

def initSt : ParseSt := ⟨none, [], [], [], false⟩

/-- Python `set.add`: add the element unless already present. -/
def insertSet (x : Str) (l : List Str) : List Str := if x ∈ l then l else l ++ [x]

/-- The body of the `for line in lines` classification loop. -/
def parseStep (st : ParseSt) (line : Str) : ParseSt :=
  if isPkgB line then
    { st with packageLine := some line, packageFound := true }
  else if isImpB line then
    { st with imports := insertSet (stripL line) st.imports }
  else if !st.packageFound && isHdrB line then
    { st with header := st.header ++ [line] }
  else
    { st with other := st.other ++ [line] }

def parseLines (ls : List Str) : ParseSt := ls.foldl parseStep initSt

/-! ### Body rewrite (step 2) -/

/-- The twelve literal `body.replace(...)` substitutions of the source, in
source order (the `tag_map`/`log_replacer` pair defined above them in the
source is never invoked and plays no part in the transform). -/
def replacePairs : List (Str × Str) :=
  [ (str "Log.d(TAG,", str "HiLog.d(HiLog.TAG_ISLAND,"),
    (str "Log.i(TAG,", str "HiLog.i(HiLog.TAG_ISLAND,"),
    (str "Log.w(TAG,", str "HiLog.w(HiLog.TAG_ISLAND,"),
    (str "Log.e(TAG,", str "HiLog.e(HiLog.TAG_ISLAND,"),
    (str "Log.d(\"HyperIsleIsland\",", str "HiLog.d(HiLog.TAG_ISLAND,"),
    (str "Log.w(\"HyperIsleIsland\",", str "HiLog.w(HiLog.TAG_ISLAND,"),
    (str "Log.e(\"HyperIsleIsland\",", str "HiLog.e(HiLog.TAG_ISLAND,"),
    (str "Log.d(\"HyperIsle\",", str "HiLog.d(HiLog.TAG_ISLAND,"),
    (str "Log.w(\"HyperIsle\",", str "HiLog.w(HiLog.TAG_ISLAND,"),
    (str "Log.d(\"HI_NOTIF\",", str "HiLog.d(HiLog.TAG_NOTIF,"),
    (str "Log.d(\"HI_CALL\",", str "HiLog.d(HiLog.TAG_CALL,"),
    (str "Log.d(\"HI_INPUT\",", str "HiLog.d(HiLog.TAG_INPUT,") ]

/-- Step 2 of the transform: `body.replace("HiHiLog", "HiLog")` followed by
the twelve whitelist substitutions, in source order. -/
def rewriteBody (b : Str) : Str :=
  replacePairs.foldl (fun s pr => replaceL s pr.1 pr.2)
    (replaceL b (str "HiHiLog") (str "HiLog"))

/-! ### Import reconciliation (step 3) -/

def oldImport : Str := str "import android.util.Log"

def newImport : Str := str "import com.coni.hyperisle.util.HiLog"

def hiDot : Str := str "HiLog."

/-- Insertion of one string into a lexically sorted list (Python compares
strings by code point). -/
def lexLe : Str → Str → Bool
  | [], _ => true
  | _ :: _, [] => false
  | a :: as, b :: bs =>
    if a.toNat < b.toNat then true
    else if b.toNat < a.toNat then false
    else lexLe as bs

def insertLe (x : Str) : List Str → List Str
  | [] => [x]
  | y :: ys => if lexLe x y then x :: y :: ys else y :: insertLe x ys

/-- Python `sorted(...)` on a duplicate-free list of strings. -/
def insertionSort : List Str → List Str
  | [] => []
  | x :: xs => insertLe x (insertionSort xs)

/-- Step 3 of the transform: drop `import android.util.Log` if present, add
the HiLog import when `"HiLog." in body` and it is missing, and sort. -/
def reconcileImports (imps : List Str) (body : Str) : List Str :=
  let imps1 := if oldImport ∈ imps then imps.erase oldImport else imps
  let imps2 :=
    if occursL hiDot body = true ∧ newImport ∉ imps1 then imps1 ++ [newImport]
    else imps1
  insertionSort imps2

/-! ### Emission (step 4) and the whole transform -/

/-- Step 4: the exact `f.write` sequence — header lines, the package line
(with a newline appended when it lacks one), a blank line, each sorted import
followed by a newline, a blank line, the body. -/
def emit (header : List Str) (pkg : Str) (imps : List Str) (body : Str) : Str :=
  joinL header ++ pkg ++ (if pkg.getLast? = some nl then [] else [nl]) ++ [nl]
    ++ joinL (imps.map (fun i => i ++ [nl])) ++ [nl] ++ body

def parsedOf (content : Str) : ParseSt := parseLines (splitLines content)

def bodyOf (content : Str) : Str := rewriteBody (joinL (parsedOf content).other)

def importsOf (content : Str) : List Str :=
  reconcileImports (parsedOf content).imports (bodyOf content)

/-- `fix_file_structure` on a file's text: `none` means the function returned
without writing anything back, `some out` means `out` is the full text written
over the file. -/
def fixFileStructure (content : Str) : Option Str :=
  match (parsedOf content).packageLine with
  | none => none
  | some pkg => some (emit (parsedOf content).header pkg (importsOf content) (bodyOf content))

/-- The whole per-path operation: `os.path.exists` failing (modelled as `none`
input) is a silent no-op, otherwise the text transform runs on the contents. -/
def fix_file : Option Str → Option Str
  | none => none
  | some content => fixFileStructure content

/-! ### Substring lemmas -/

theorem startsWithL_iff : ∀ p s : Str, startsWithL p s = true ↔ ∃ t, s = p ++ t
  | [], s => by simp [startsWithL]
  | _ :: _, [] => by simp [startsWithL]
  | a :: ps, b :: ss => by
    simp only [startsWithL, Bool.and_eq_true, beq_iff_eq, List.cons_append, List.cons.injEq]
    rw [startsWithL_iff ps ss]
    constructor
    · rintro ⟨rfl, t, rfl⟩
      exact ⟨t, rfl, rfl⟩
    · rintro ⟨t, rfl, rfl⟩
      exact ⟨rfl, t, rfl⟩

theorem occursL_of_startsWithL {p s : Str} (h : startsWithL p s = true) :
    occursL p s = true := by
  cases s with
  | nil => simpa [occursL] using h
  | cons c rest => simp [occursL, h]

theorem occursL_iff : ∀ p s : Str, occursL p s = true ↔ ∃ x y, s = x ++ p ++ y := by
  intro p s
  induction s with
  | nil =>
    simp only [occursL, startsWithL_iff]
    constructor
    · rintro ⟨t, ht⟩
      exact ⟨[], t, by simpa using ht⟩
    · rintro ⟨x, y, hxy⟩
      have hx : x = [] ∧ p ++ y = [] := by
        simpa [List.append_eq_nil] using hxy.symm
      exact ⟨y, by simpa using hx.2.symm⟩
  | cons c rest ih =>
    simp only [occursL, Bool.or_eq_true]
    constructor
    · rintro (h | h)
      · obtain ⟨t, ht⟩ := (startsWithL_iff p _).mp h
        exact ⟨[], t, by simpa using ht⟩
      · obtain ⟨x, y, hxy⟩ := ih.mp h
        exact ⟨c :: x, y, by simp [hxy]⟩
    · rintro ⟨x, y, hxy⟩
      cases x with
      | nil =>
        exact Or.inl ((startsWithL_iff p _).mpr ⟨y, by simpa using hxy⟩)
      | cons d xs =>
        simp only [List.cons_append, List.cons.injEq] at hxy
        exact Or.inr (ih.mpr ⟨xs, y, hxy.2⟩)

theorem occursL_trans {a b c : Str} (h1 : occursL a b = true) (h2 : occursL b c = true) :
    occursL a c = true := by
  obtain ⟨x, y, rfl⟩ := (occursL_iff a b).mp h1
  obtain ⟨u, v, rfl⟩ := (occursL_iff _ c).mp h2
  exact (occursL_iff a _).mpr ⟨u ++ x, y ++ v, by simp⟩

theorem occursL_append_self (p z : Str) : occursL p (p ++ z) = true :=
  occursL_of_startsWithL ((startsWithL_iff p _).mpr ⟨z, rfl⟩)

theorem occursL_false_startsWithL {p s : Str} (h : occursL p s = false) :
    startsWithL p s = false := by
  cases s with
  | nil => simpa [occursL] using h
  | cons c rest =>
    simp only [occursL, Bool.or_eq_false_iff] at h
    exact h.1

theorem occursL_false_tail {p : Str} {c : Char} {rest : Str}
    (h : occursL p (c :: rest) = false) : occursL p rest = false := by
  simp only [occursL, Bool.or_eq_false_iff] at h
  exact h.2

/-! ### `replaceL` lemmas -/

theorem replaceLAux_not_occurs (p r : Str) :
    ∀ fuel s, occursL p s = false → replaceLAux fuel s p r = s := by
  intro fuel
  induction fuel with
  | zero => intro s _; rfl
  | succ n ih =>
    intro s hocc
    have hsw : startsWithL p s = false := occursL_false_startsWithL hocc
    cases s with
    | nil => rfl
    | cons c rest =>
      have ht : occursL p rest = false := occursL_false_tail hocc
      rw [replaceLAux, if_neg (by simp [hsw]), ih rest ht]

theorem replaceL_not_occurs (s p r : Str) (h : occursL p s = false) :
    replaceL s p r = s :=
  replaceLAux_not_occurs p r s.length s h

theorem replaceLAux_occurs (p r : Str) (hp : p ≠ []) :
    ∀ fuel s, s.length ≤ fuel → occursL p s = true →
      occursL r (replaceLAux fuel s p r) = true := by
  intro fuel
  induction fuel with
  | zero =>
    intro s hs hocc
    have hnil : s = [] := List.length_eq_zero.mp (Nat.le_zero.mp hs)
    subst hnil
    cases p with
    | nil => exact absurd rfl hp
    | cons a ps => simp [occursL, startsWithL] at hocc
  | succ n ih =>
    intro s hs hocc
    cases s with
    | nil =>
      cases p with
      | nil => exact absurd rfl hp
      | cons a ps => simp [occursL, startsWithL] at hocc
    | cons c rest =>
      by_cases hsw : startsWithL p (c :: rest) = true
      · rw [replaceLAux, if_pos ⟨hp, hsw⟩]
        exact occursL_append_self r _
      · rw [replaceLAux, if_neg (by simp [hsw])]
        have hr : occursL p rest = true := by
          have h2 : startsWithL p (c :: rest) = true ∨ occursL p rest = true := by
            simpa [occursL] using hocc
          rcases h2 with h | h
          · exact absurd h hsw
          · exact h
        have := ih rest (Nat.le_of_succ_le_succ hs) hr
        simp [occursL, this]

theorem replaceL_occurs (s p r : Str) (hp : p ≠ []) (h : occursL p s = true) :
    occursL r (replaceL s p r) = true :=
  replaceLAux_occurs p r hp s.length s (Nat.le_refl _) h

/-! ### Step equations for `replaceL` and the copy-through lemma

These support the survival theorem below: an occurrence of a whitelist
pattern survives the defensive `HiHiLog -> HiLog` collapse, because an
artifact occurrence can overlap a pattern occurrence only through the
shared trailing `Log`, which the replacement string keeps. -/

theorem replaceLAux_cons (n : Nat) (c : Char) (rest p r : Str) :
    replaceLAux (n + 1) (c :: rest) p r
      = if p ≠ [] ∧ startsWithL p (c :: rest) = true then
          r ++ replaceLAux n ((c :: rest).drop p.length) p r
        else c :: replaceLAux n rest p r := rfl

theorem replaceLAux_fuel (p r : Str) :
    ∀ f1 f2 s, s.length ≤ f1 → s.length ≤ f2 →
      replaceLAux f1 s p r = replaceLAux f2 s p r := by
  intro f1
  induction f1 with
  | zero =>
    intro f2 s hs1 _
    have hnil : s = [] := List.length_eq_zero.mp (Nat.le_zero.mp hs1)
    subst hnil
    cases f2 <;> rfl
  | succ n ih =>
    intro f2 s hs1 hs2
    cases s with
    | nil => cases f2 <;> rfl
    | cons c rest =>
      cases f2 with
      | zero => simp at hs2
      | succ m =>
        rw [replaceLAux_cons, replaceLAux_cons]
        by_cases h : p ≠ [] ∧ startsWithL p (c :: rest) = true
        · rw [if_pos h, if_pos h]
          have hplen : 1 ≤ p.length := List.length_pos.mpr h.1
          simp only [List.length_cons] at hs1 hs2
          rw [ih m _ (by simp only [List.length_drop, List.length_cons]; omega)
            (by simp only [List.length_drop, List.length_cons]; omega)]
        · rw [if_neg h, if_neg h]
          simp only [List.length_cons] at hs1 hs2
          rw [ih m rest (by omega) (by omega)]

theorem replaceL_cons_nofire (c : Char) (t p r : Str)
    (h : startsWithL p (c :: t) = false) :
    replaceL (c :: t) p r = c :: replaceL t p r := by
  unfold replaceL
  rw [show (c :: t).length = t.length + 1 from rfl, replaceLAux_cons,
    if_neg (by simp [h])]

theorem replaceL_fire (s p r : Str) (hp : p ≠ []) (h : startsWithL p s = true) :
    replaceL s p r = r ++ replaceL (s.drop p.length) p r := by
  cases s with
  | nil =>
    cases p with
    | nil => exact absurd rfl hp
    | cons a q => simp [startsWithL] at h
  | cons c rest =>
    unfold replaceL
    rw [show (c :: rest).length = rest.length + 1 from rfl, replaceLAux_cons,
      if_pos ⟨hp, h⟩]
    have hplen : 1 ≤ p.length := List.length_pos.mpr hp
    congr 1
    exact replaceLAux_fuel p r rest.length _ _
      (by simp only [List.length_drop, List.length_cons]; omega) (Nat.le_refl _)

theorem startsWith_append_left : ∀ a b u : Str,
    startsWithL a (b ++ u) = true → a.length ≤ b.length → startsWithL a b = true
  | [], _, _, _, _ => rfl
  | _ :: _, [], _, _, hl => by simp at hl
  | x :: a, y :: b, u, h, hl => by
    simp only [List.cons_append, startsWithL, Bool.and_eq_true, beq_iff_eq] at h ⊢
    refine ⟨h.1, startsWith_append_left a b u h.2 ?_⟩
    simp only [List.length_cons] at hl
    omega

theorem startsWith_append_swap : ∀ a b u : Str,
    startsWithL a (b ++ u) = true → b.length ≤ a.length → startsWithL b a = true
  | _, [], _, _, _ => rfl
  | [], _ :: _, _, _, hl => by simp at hl
  | x :: a, y :: b, u, h, hl => by
    simp only [List.cons_append, startsWithL, Bool.and_eq_true, beq_iff_eq] at h ⊢
    refine ⟨h.1.symm, startsWith_append_swap a b u h.2 ?_⟩
    simp only [List.length_cons] at hl
    omega

theorem startsWith_eq_take : ∀ q s : Str, startsWithL q s = true → q = s.take q.length
  | [], _, _ => rfl
  | _ :: _, [], h => by simp [startsWithL] at h
  | x :: q, y :: s, h => by
    simp only [startsWithL, Bool.and_eq_true, beq_iff_eq] at h
    simp only [List.length_cons, List.take_succ_cons]
    rw [← h.1, ← startsWith_eq_take q s h.2]

theorem startsWith_decomp (q s : Str) (h : startsWithL q s = true) :
    s = q ++ s.drop q.length := by
  conv_lhs => rw [← List.take_append_drop q.length s]
  rw [← startsWith_eq_take q s h]

theorem startsWith_append_cancel : ∀ q a b : Str,
    startsWithL (q ++ a) (q ++ b) = startsWithL a b
  | [], _, _ => rfl
  | x :: q, a, b => by
    simp only [List.cons_append, startsWithL, beq_self_eq_true, Bool.true_and]
    exact startsWith_append_cancel q a b

theorem occursL_append_right (p z t : Str) (h : occursL p t = true) :
    occursL p (z ++ t) = true := by
  obtain ⟨x, y, rfl⟩ := (occursL_iff p t).mp h
  exact (occursL_iff p _).mpr ⟨z ++ x, y, by simp⟩

theorem tailsOk_tail (hh : Str) : ∀ l : Str, tailsOk hh l = true → tailsOk hh l.tail = true
  | [], _ => rfl
  | c :: t, h => by
    simp only [tailsOk, Bool.and_eq_true] at h
    exact h.2.2

theorem tailsOk_drop (hh : Str) : ∀ (n : Nat) (l : Str),
    tailsOk hh l = true → tailsOk hh (l.drop n) = true := by
  intro n
  induction n with
  | zero => intro l h; simpa using h
  | succ m ih =>
    intro l h
    cases l with
    | nil => rfl
    | cons c t =>
      rw [List.drop_succ_cons]
      exact ih t (tailsOk_tail hh (c :: t) h)

theorem tailsOk_no_fire (hh : Str) (c : Char) (q u : Str)
    (h1 : startsWithL hh (c :: q) = false) (h2 : startsWithL (c :: q) hh = false) :
    startsWithL hh ((c :: q) ++ u) = false := by
  by_contra hc
  rw [Bool.not_eq_false] at hc
  rcases Nat.le_total hh.length (c :: q).length with hl | hl
  · have := startsWith_append_left hh (c :: q) u hc hl
    rw [h1] at this
    simp at this
  · have := startsWith_append_swap hh (c :: q) u hc hl
    rw [h2] at this
    simp at this

theorem copyThrough (hh hi : Str) : ∀ q u : Str, tailsOk hh q = true →
    replaceL (q ++ u) hh hi = q ++ replaceL u hh hi := by
  intro q
  induction q with
  | nil => intro u _; simp
  | cons c q ih =>
    intro u ht
    simp only [tailsOk, Bool.and_eq_true, Bool.not_eq_true'] at ht
    rw [List.cons_append, replaceL_cons_nofire _ _ _ _
      (by simpa [List.cons_append] using tailsOk_no_fire hh c q u ht.1 ht.2.1)]
    rw [ih u ht.2.2, List.cons_append]

/-- Scan induction for the survival theorem: if `p` is at least as long as
the artifact, no suffix of `p` meshes with the artifact (`tailsOk`), the
artifact's proper tails other than `Log` are not prefixes of `p`, and `p`
starts with `Log`, then an occurrence of `p` survives the
`HiHiLog -> HiLog` replacement (the only possible overlap consumes the
artifact's trailing `Log`, which the replacement string restores). -/
theorem replaceHH_survives_aux (p : Str)
    (hlen : 7 ≤ p.length)
    (htails : tailsOk (str "HiHiLog") p = true)
    (hk1 : startsWithL ((str "HiHiLog").drop 1) p = false)
    (hk2 : startsWithL ((str "HiHiLog").drop 2) p = false)
    (hk3 : startsWithL ((str "HiHiLog").drop 3) p = false)
    (hk5 : startsWithL ((str "HiHiLog").drop 5) p = false)
    (hk6 : startsWithL ((str "HiHiLog").drop 6) p = false)
    (hLog : startsWithL (str "Log") p = true) :
    ∀ (n : Nat) (s x y : Str), s.length ≤ n → s = x ++ (p ++ y) →
      occursL p (replaceL s (str "HiHiLog") (str "HiLog")) = true := by
  intro n
  induction n with
  | zero =>
    intro s x y hsn hs
    have hnil : s = [] := List.length_eq_zero.mp (Nat.le_zero.mp hsn)
    rw [hnil] at hs
    have hlens := congrArg List.length hs
    simp at hlens
    omega
  | succ n ih =>
    intro s x y hsn hs
    cases x with
    | nil =>
      subst hs
      simp only [List.nil_append]
      rw [copyThrough _ _ p y htails]
      exact occursL_append_self p _
    | cons c x =>
      by_cases hf : startsWithL (str "HiHiLog") s = true
      · rw [replaceL_fire s _ _ (by decide) hf,
          show (str "HiHiLog").length = 7 from rfl]
        by_cases hx7 : 7 ≤ (c :: x).length
        · have hD : s.drop 7 = (c :: x).drop 7 ++ (p ++ y) := by
            rw [hs]
            exact List.drop_append_of_le_length hx7
          have hDn : (s.drop 7).length ≤ n := by
            have h1 : 1 ≤ s.length := by
              rw [hs]
              simp
            simp only [List.length_drop]
            omega
          exact occursL_append_right p _ _ (ih (s.drop 7) ((c :: x).drop 7) y hDn hD)
        · have hxle : (c :: x).length ≤ (str "HiHiLog").length := by
            show (c :: x).length ≤ 7
            omega
          have hxp : startsWithL (c :: x) (str "HiHiLog") = true := by
            apply startsWith_append_swap _ _ (p ++ y) _ hxle
            rw [← hs]
            exact hf
          have hhdec : (str "HiHiLog")
              = (c :: x) ++ (str "HiHiLog").drop (c :: x).length := by
            conv_lhs => rw [← List.take_append_drop (c :: x).length (str "HiHiLog")]
            rw [← startsWith_eq_take _ _ hxp]
          have hrestp : startsWithL ((str "HiHiLog").drop (c :: x).length) p = true := by
            apply startsWith_append_left _ _ y ?_ ?_
            · have h0 := hf
              rw [hs] at h0
              rw [hhdec, startsWith_append_cancel] at h0
              exact h0
            · simp only [List.length_drop]
              have h7 : (str "HiHiLog").length = 7 := rfl
              omega
          have hk : (c :: x).length = 1 ∨ (c :: x).length = 2 ∨ (c :: x).length = 3
              ∨ (c :: x).length = 4 ∨ (c :: x).length = 5 ∨ (c :: x).length = 6 := by
            simp only [List.length_cons] at hx7 ⊢
            omega
          rcases hk with hk | hk | hk | hk | hk | hk
          · rw [hk, hk1] at hrestp
            simp at hrestp
          · rw [hk, hk2] at hrestp
            simp at hrestp
          · rw [hk, hk3] at hrestp
            simp at hrestp
          · have hx4 : (c :: x) = ['H', 'i', 'H', 'i'] := by
              have h1 := startsWith_eq_take _ _ hxp
              rw [hk] at h1
              exact h1
            rw [hs, hx4]
            have hdrop : ((['H', 'i', 'H', 'i'] : Str) ++ (p ++ y)).drop 7
                = (p ++ y).drop 3 := rfl
            rw [hdrop, List.drop_append_of_le_length (by omega),
              copyThrough _ _ _ _ (tailsOk_drop _ 3 p htails)]
            apply (occursL_iff p _).mpr
            refine ⟨['H', 'i'], replaceL y (str "HiHiLog") (str "HiLog"), ?_⟩
            have hp3 : p = (str "Log") ++ p.drop 3 := startsWith_decomp _ _ hLog
            calc (str "HiLog")
                ++ (p.drop 3 ++ replaceL y (str "HiHiLog") (str "HiLog"))
                = (['H', 'i'] ++ str "Log")
                  ++ (p.drop 3 ++ replaceL y (str "HiHiLog") (str "HiLog")) := rfl
              _ = ['H', 'i']
                  ++ ((str "Log" ++ p.drop 3)
                    ++ replaceL y (str "HiHiLog") (str "HiLog")) := by
                  simp [List.append_assoc]
              _ = ['H', 'i'] ++ (p ++ replaceL y (str "HiHiLog") (str "HiLog")) := by
                  rw [← hp3]
              _ = ['H', 'i'] ++ p ++ replaceL y (str "HiHiLog") (str "HiLog") := by
                  simp [List.append_assoc]
          · rw [hk, hk5] at hrestp
            simp at hrestp
          · rw [hk, hk6] at hrestp
            simp at hrestp
      · rw [Bool.not_eq_true] at hf
        rw [hs, List.cons_append] at hf
        rw [hs, List.cons_append, replaceL_cons_nofire _ _ _ _ hf]
        have hocc := ih (x ++ (p ++ y)) x y (by
          rw [hs] at hsn
          simp only [List.cons_append, List.length_cons] at hsn
          omega) rfl
        simp [occursL, hocc]

/-- An occurrence of any whitelist pattern survives the defensive
`HiHiLog -> HiLog` collapse. -/
theorem replaceHH_survives (p : Str)
    (hlen : 7 ≤ p.length)
    (htails : tailsOk (str "HiHiLog") p = true)
    (hk1 : startsWithL ((str "HiHiLog").drop 1) p = false)
    (hk2 : startsWithL ((str "HiHiLog").drop 2) p = false)
    (hk3 : startsWithL ((str "HiHiLog").drop 3) p = false)
    (hk5 : startsWithL ((str "HiHiLog").drop 5) p = false)
    (hk6 : startsWithL ((str "HiHiLog").drop 6) p = false)
    (hLog : startsWithL (str "Log") p = true)
    (s : Str) (hocc : occursL p s = true) :
    occursL p (replaceL s (str "HiHiLog") (str "HiLog")) = true := by
  obtain ⟨x, y, hxy⟩ := (occursL_iff p s).mp hocc
  exact replaceHH_survives_aux p hlen htails hk1 hk2 hk3 hk5 hk6 hLog
    s.length s x y (Nat.le_refl _) (by rw [hxy]; simp [List.append_assoc])

/-! ### Lemmas about the substitution chain of `rewriteBody` -/

theorem chain_id : ∀ (L : List (Str × Str)) (s : Str),
    (∀ pr ∈ L, occursL pr.1 s = false) →
    L.foldl (fun s pr => replaceL s pr.1 pr.2) s = s := by
  intro L
  induction L with
  | nil => intro s _; rfl
  | cons pr L ih =>
    intro s h
    have h0 : occursL pr.1 s = false := h pr (List.mem_cons_self pr L)
    simp only [List.foldl_cons, replaceL_not_occurs s pr.1 pr.2 h0]
    exact ih s fun q hq => h q (List.mem_cons_of_mem pr hq)

theorem chain_preserves (t : Str) : ∀ (L : List (Str × Str)) (s : Str),
    (∀ pr ∈ L, pr.1 ≠ [] ∧ occursL t pr.2 = true) → occursL t s = true →
    occursL t (L.foldl (fun s pr => replaceL s pr.1 pr.2) s) = true := by
  intro L
  induction L with
  | nil => intro s _ hs; exact hs
  | cons pr L ih =>
    intro s h hs
    obtain ⟨hp, hr⟩ := h pr (List.mem_cons_self pr L)
    have htail : ∀ q ∈ L, q.1 ≠ [] ∧ occursL t q.2 = true :=
      fun q hq => h q (List.mem_cons_of_mem pr hq)
    simp only [List.foldl_cons]
    by_cases hc : occursL pr.1 s = true
    · exact ih _ htail (occursL_trans hr (replaceL_occurs s pr.1 pr.2 hp hc))
    · rw [replaceL_not_occurs s pr.1 pr.2 (Bool.not_eq_true _ ▸ hc)]
      exact ih s htail hs

theorem chain_fires (t : Str) : ∀ (L : List (Str × Str)) (s : Str),
    (∀ pr ∈ L, pr.1 ≠ [] ∧ occursL t pr.2 = true) →
    (∃ pr ∈ L, occursL pr.1 s = true) →
    occursL t (L.foldl (fun s pr => replaceL s pr.1 pr.2) s) = true := by
  intro L
  induction L with
  | nil => rintro s _ ⟨pr, hpr, _⟩; exact absurd hpr (List.not_mem_nil pr)
  | cons pr L ih =>
    rintro s h ⟨q, hq, hqs⟩
    obtain ⟨hp, hr⟩ := h pr (List.mem_cons_self pr L)
    have htail : ∀ q ∈ L, q.1 ≠ [] ∧ occursL t q.2 = true :=
      fun q hq => h q (List.mem_cons_of_mem pr hq)
    simp only [List.foldl_cons]
    by_cases hc : occursL pr.1 s = true
    · exact chain_preserves t L _ htail
        (occursL_trans hr (replaceL_occurs s pr.1 pr.2 hp hc))
    · rw [replaceL_not_occurs s pr.1 pr.2 (Bool.not_eq_true _ ▸ hc)]
      rcases List.mem_cons.mp hq with rfl | hq2
      · exact absurd hqs hc
      · exact ih s htail ⟨q, hq2, hqs⟩

/-! ### Lemmas about sorting and set insertion -/

theorem mem_insertLe {a x : Str} : ∀ {l : List Str}, a ∈ insertLe x l ↔ a = x ∨ a ∈ l := by
  intro l
  induction l with
  | nil => simp [insertLe]
  | cons y ys ih =>
    simp only [insertLe]
    by_cases h : lexLe x y = true
    · rw [if_pos h]
      simp [List.mem_cons]
    · rw [if_neg h]
      simp only [List.mem_cons, ih]
      tauto

theorem mem_insertionSort {a : Str} : ∀ {l : List Str}, a ∈ insertionSort l ↔ a ∈ l := by
  intro l
  induction l with
  | nil => simp [insertionSort]
  | cons x xs ih => simp [insertionSort, mem_insertLe, ih]

theorem lexLe_total : ∀ a b : Str, lexLe a b = true ∨ lexLe b a = true
  | [], _ => Or.inl rfl
  | _ :: _, [] => Or.inr rfl
  | x :: xs, y :: ys => by
    simp only [lexLe]
    rcases Nat.lt_trichotomy x.toNat y.toNat with h | h | h
    · left; simp [h]
    · rw [if_neg (by omega), if_neg (by omega), if_neg (by omega), if_neg (by omega)]
      exact lexLe_total xs ys
    · right; simp [h]

theorem lexLe_trans : ∀ a b c : Str,
    lexLe a b = true → lexLe b c = true → lexLe a c = true
  | [], _, _, _, _ => rfl
  | _ :: _, [], _, h, _ => by simp [lexLe] at h
  | _ :: _, _ :: _, [], _, h => by simp [lexLe] at h
  | x :: xs, y :: ys, z :: zs, h1, h2 => by
    simp only [lexLe] at h1 h2 ⊢
    rcases Nat.lt_trichotomy x.toNat y.toNat with hxy | hxy | hxy <;>
      rcases Nat.lt_trichotomy y.toNat z.toNat with hyz | hyz | hyz
    all_goals first
      | (rw [if_pos (by omega)])
      | (rw [if_neg (by omega), if_neg (by omega)]
         rw [if_neg (by omega), if_neg (by omega)] at h1 h2
         exact lexLe_trans xs ys zs h1 h2)
      | (exfalso
         rw [if_neg (by omega)] at h1 h2
         rw [if_pos (by omega)] at h1 h2
         simp at h1 h2)
      | (exfalso
         rw [if_neg (by omega), if_pos (by omega)] at h1
         simp at h1)
      | (exfalso
         rw [if_neg (by omega), if_pos (by omega)] at h2
         simp at h2)

theorem insertLe_sorted {x : Str} : ∀ {l : List Str},
    l.Pairwise (fun a b => lexLe a b = true) →
    (insertLe x l).Pairwise (fun a b => lexLe a b = true) := by
  intro l
  induction l with
  | nil => intro _; simp [insertLe]
  | cons y ys ih =>
    intro h
    rw [List.pairwise_cons] at h
    simp only [insertLe]
    by_cases hxy : lexLe x y = true
    · rw [if_pos hxy, List.pairwise_cons]
      refine ⟨?_, List.pairwise_cons.mpr h⟩
      intro z hz
      rcases List.mem_cons.mp hz with rfl | hz2
      · exact hxy
      · exact lexLe_trans x y z hxy (h.1 z hz2)
    · rw [if_neg hxy, List.pairwise_cons]
      have hyx : lexLe y x = true := by
        rcases lexLe_total x y with h' | h'
        · exact absurd h' hxy
        · exact h'
      refine ⟨?_, ih h.2⟩
      intro z hz
      rcases mem_insertLe.mp hz with rfl | hz2
      · exact hyx
      · exact h.1 z hz2

theorem insertionSort_sorted : ∀ l : List Str,
    (insertionSort l).Pairwise (fun a b => lexLe a b = true)
  | [] => List.Pairwise.nil
  | _ :: xs => insertLe_sorted (insertionSort_sorted xs)

theorem insertSet_nodup {x : Str} {l : List Str} (h : l.Nodup) :
    (insertSet x l).Nodup := by
  unfold insertSet
  by_cases hm : x ∈ l
  · rwa [if_pos hm]
  · rw [if_neg hm]
    simpa [List.nodup_append, h] using hm

theorem insertSet_mem {a x : Str} {l : List Str} :
    a ∈ insertSet x l ↔ a = x ∨ a ∈ l := by
  unfold insertSet
  by_cases hm : x ∈ l
  · rw [if_pos hm]
    constructor
    · exact Or.inr
    · rintro (rfl | h)
      · exact hm
      · exact h
  · rw [if_neg hm]
    simp [or_comm]

/-! ### Lemmas about import reconciliation -/

theorem newImport_ne_oldImport : newImport ≠ oldImport := by decide

theorem not_mem_reconcile_old {imps : List Str} (b : Str) (hnd : imps.Nodup) :
    oldImport ∉ reconcileImports imps b := by
  unfold reconcileImports
  intro hmem
  rw [mem_insertionSort] at hmem
  have h1 : oldImport ∉ (if oldImport ∈ imps then imps.erase oldImport else imps) := by
    by_cases hm : oldImport ∈ imps
    · rw [if_pos hm]
      intro hc
      exact absurd rfl ((List.Nodup.mem_erase_iff hnd).mp hc).1
    · rwa [if_neg hm]
  set imps1 := if oldImport ∈ imps then imps.erase oldImport else imps with himps1
  by_cases hc : occursL hiDot b = true ∧ newImport ∉ imps1
  · rw [if_pos hc] at hmem
    rcases List.mem_append.mp hmem with h | h
    · exact h1 h
    · have heq : oldImport = newImport := by simpa using h
      exact newImport_ne_oldImport heq.symm
  · rw [if_neg hc] at hmem
    exact h1 hmem

theorem mem_reconcile_new {imps : List Str} {b : Str} (h : occursL hiDot b = true) :
    newImport ∈ reconcileImports imps b := by
  unfold reconcileImports
  rw [mem_insertionSort]
  set imps1 := if oldImport ∈ imps then imps.erase oldImport else imps with himps1
  by_cases hm : newImport ∈ imps1
  · by_cases hc : occursL hiDot b = true ∧ newImport ∉ imps1
    · rw [if_pos hc]
      exact List.mem_append_left _ hm
    · rwa [if_neg hc]
  · rw [if_pos ⟨h, hm⟩]
    exact List.mem_append_right _ (List.mem_singleton.mpr rfl)

/-! ### Lemmas about the classification loop -/

theorem parseStep_pkg (st : ParseSt) (l : Str) (h : isPkgB l = true) :
    parseStep st l = { st with packageLine := some l, packageFound := true } := by
  unfold parseStep
  rw [if_pos h]

theorem parseStep_imp (st : ParseSt) (l : Str)
    (h1 : isPkgB l = false) (h2 : isImpB l = true) :
    parseStep st l = { st with imports := insertSet (stripL l) st.imports } := by
  unfold parseStep
  rw [if_neg (by simp [h1]), if_pos h2]

theorem parseStep_hdr (st : ParseSt) (l : Str)
    (h1 : isPkgB l = false) (h2 : isImpB l = false)
    (h3 : st.packageFound = false) (h4 : isHdrB l = true) :
    parseStep st l = { st with header := st.header ++ [l] } := by
  unfold parseStep
  rw [if_neg (by simp [h1]), if_neg (by simp [h2]), if_pos (by simp [h3, h4])]

theorem parseStep_other (st : ParseSt) (l : Str)
    (h1 : isPkgB l = false) (h2 : isImpB l = false)
    (h3 : (!st.packageFound && isHdrB l) = false) :
    parseStep st l = { st with other := st.other ++ [l] } := by
  unfold parseStep
  rw [if_neg (by simp [h1]), if_neg (by simp [h2]), if_neg (by simp [h3])]

theorem parseStep_packageFound (st : ParseSt) (l : Str) :
    (parseStep st l).packageFound = (st.packageFound || isPkgB l) := by
  by_cases h1 : isPkgB l = true
  · rw [parseStep_pkg st l h1, h1]
    simp
  · rw [Bool.not_eq_true] at h1
    by_cases h2 : isImpB l = true
    · rw [parseStep_imp st l h1 h2, h1]
      simp
    · rw [Bool.not_eq_true] at h2
      by_cases h3 : (!st.packageFound && isHdrB l) = true
      · have hpf : st.packageFound = false := by
          rcases Bool.and_eq_true .. |>.mp h3 with ⟨ha, _⟩
          simpa using ha
        rw [parseStep_hdr st l h1 h2 hpf (by
          rcases Bool.and_eq_true .. |>.mp h3 with ⟨_, hb⟩
          exact hb), h1]
        simp
      · rw [Bool.not_eq_true] at h3
        rw [parseStep_other st l h1 h2 h3, h1]
        simp

theorem parseStep_packageLine (st : ParseSt) (l : Str) :
    (parseStep st l).packageLine = if isPkgB l then some l else st.packageLine := by
  by_cases h1 : isPkgB l = true
  · rw [parseStep_pkg st l h1, if_pos h1]
  · rw [Bool.not_eq_true] at h1
    rw [if_neg (by simp [h1])]
    by_cases h2 : isImpB l = true
    · rw [parseStep_imp st l h1 h2]
    · rw [Bool.not_eq_true] at h2
      by_cases h3 : (!st.packageFound && isHdrB l) = true
      · have hpf : st.packageFound = false := by
          rcases Bool.and_eq_true .. |>.mp h3 with ⟨ha, _⟩
          simpa using ha
        rw [parseStep_hdr st l h1 h2 hpf (by
          rcases Bool.and_eq_true .. |>.mp h3 with ⟨_, hb⟩
          exact hb)]
      · rw [Bool.not_eq_true] at h3
        rw [parseStep_other st l h1 h2 h3]

theorem foldl_packageFound : ∀ (ls : List Str) (st : ParseSt),
    (ls.foldl parseStep st).packageFound = (st.packageFound || ls.any isPkgB) := by
  intro ls
  induction ls with
  | nil => intro st; simp
  | cons l ls ih =>
    intro st
    simp only [List.foldl_cons, List.any_cons, ih, parseStep_packageFound, Bool.or_assoc]

theorem foldl_packageLine : ∀ (ls : List Str) (st : ParseSt),
    (ls.foldl parseStep st).packageLine
      = ls.foldl (fun acc l => if isPkgB l then some l else acc) st.packageLine := by
  intro ls
  induction ls with
  | nil => intro st; rfl
  | cons l ls ih =>
    intro st
    simp only [List.foldl_cons, ih, parseStep_packageLine]

theorem optFold_getLast : ∀ (ls : List Str) (init : Option Str),
    ls.foldl (fun acc l => if isPkgB l then some l else acc) init
      = match (ls.filter (fun l => isPkgB l)).getLast? with
        | some x => some x
        | none => init := by
  intro ls
  induction ls using List.reverseRecOn with
  | nil => intro init; rfl
  | append_singleton ls l ih =>
    intro init
    rw [List.foldl_append, List.filter_append]
    by_cases h : isPkgB l = true
    · have hf : List.filter (fun l => isPkgB l) [l] = [l] := by
        simp [List.filter_cons, h]
      rw [hf, List.getLast?_append_cons]
      simp only [List.foldl_cons, List.foldl_nil, if_pos h]
      rfl
    · rw [Bool.not_eq_true] at h
      have hf : List.filter (fun l => isPkgB l) [l] = [] := by
        simp [List.filter_cons, h]
      rw [hf, List.append_nil]
      simp only [List.foldl_cons, List.foldl_nil]
      rw [if_neg (by simp [h])]
      exact ih init

theorem parseLines_packageLine (ls : List Str) :
    (parseLines ls).packageLine = (ls.filter (fun l => isPkgB l)).getLast? := by
  rw [parseLines, foldl_packageLine, optFold_getLast]
  cases (ls.filter (fun l => isPkgB l)).getLast? with
  | none => rfl
  | some x => rfl

theorem foldl_header_lines : ∀ (L : List Str) (st : ParseSt),
    st.packageFound = false →
    (∀ l ∈ L, isPkgB l = false ∧ isImpB l = false ∧ isHdrB l = true) →
    L.foldl parseStep st = { st with header := st.header ++ L } := by
  intro L
  induction L with
  | nil => intro st _ _; simp
  | cons l L ih =>
    intro st hpf h
    obtain ⟨h1, h2, h3⟩ := h l (List.mem_cons_self l L)
    have hstep : parseStep st l = { st with header := st.header ++ [l] } :=
      parseStep_hdr st l h1 h2 hpf h3
    simp only [List.foldl_cons, hstep]
    rw [ih _ (by simp [hpf]) (fun q hq => h q (List.mem_cons_of_mem l hq))]
    simp

theorem foldl_body_lines : ∀ (L : List Str) (st : ParseSt),
    st.packageFound = true →
    (∀ l ∈ L, isPkgB l = false ∧ isImpB l = false) →
    L.foldl parseStep st = { st with other := st.other ++ L } := by
  intro L
  induction L with
  | nil => intro st _ _; simp
  | cons l L ih =>
    intro st hpf h
    obtain ⟨h1, h2⟩ := h l (List.mem_cons_self l L)
    have hstep : parseStep st l = { st with other := st.other ++ [l] } :=
      parseStep_other st l h1 h2 (by simp [hpf])
    simp only [List.foldl_cons, hstep]
    rw [ih _ (by simp [hpf]) (fun q hq => h q (List.mem_cons_of_mem l hq))]
    simp

theorem foldl_import_lines : ∀ (I : List Str) (st : ParseSt),
    (∀ i ∈ I, isPkgB (i ++ [nl]) = false ∧ isImpB (i ++ [nl]) = true
       ∧ stripL (i ++ [nl]) = i) →
    (I.map (fun i => i ++ [nl])).foldl parseStep st
      = { st with imports := I.foldl (fun acc i => insertSet i acc) st.imports } := by
  intro I
  induction I with
  | nil => intro st _; simp
  | cons i I ih =>
    intro st h
    obtain ⟨h1, h2, h3⟩ := h i (List.mem_cons_self i I)
    have hstep : parseStep st (i ++ [nl])
        = { st with imports := insertSet i st.imports } := by
      rw [parseStep_imp st (i ++ [nl]) h1 h2, h3]
    simp only [List.map_cons, List.foldl_cons, hstep]
    rw [ih _ (fun q hq => h q (List.mem_cons_of_mem i hq))]

theorem insertSet_foldl_nodup : ∀ (I : List Str) (acc : List Str),
    I.Nodup → (∀ i ∈ I, i ∉ acc) →
    I.foldl (fun acc i => insertSet i acc) acc = acc ++ I := by
  intro I
  induction I with
  | nil => intro acc _ _; simp
  | cons i I ih =>
    intro acc hnd hdisj
    have hni : i ∉ acc := hdisj i (List.mem_cons_self i I)
    have hstep : insertSet i acc = acc ++ [i] := by
      unfold insertSet
      rw [if_neg hni]
    simp only [List.foldl_cons, hstep]
    rw [ih (acc ++ [i]) (List.Nodup.of_cons hnd) ?_]
    · simp
    · intro q hq
      simp only [List.mem_append, List.mem_singleton]
      rintro (hqa | rfl)
      · exact hdisj q (List.mem_cons_of_mem i hq) hqa
      · exact (List.nodup_cons.mp hnd).1 hq

theorem parse_imports_nodup : ∀ (ls : List Str) (st : ParseSt),
    st.imports.Nodup → (ls.foldl parseStep st).imports.Nodup := by
  intro ls
  induction ls with
  | nil => intro st h; exact h
  | cons l ls ih =>
    intro st h
    apply ih
    by_cases h1 : isPkgB l = true
    · rw [parseStep_pkg st l h1]
      exact h
    · rw [Bool.not_eq_true] at h1
      by_cases h2 : isImpB l = true
      · rw [parseStep_imp st l h1 h2]
        exact insertSet_nodup h
      · rw [Bool.not_eq_true] at h2
        by_cases h3 : (!st.packageFound && isHdrB l) = true
        · have hpf : st.packageFound = false := by
            rcases Bool.and_eq_true .. |>.mp h3 with ⟨ha, _⟩
            simpa using ha
          have hhdr : isHdrB l = true := by
            rcases Bool.and_eq_true .. |>.mp h3 with ⟨_, hb⟩
            exact hb
          rw [parseStep_hdr st l h1 h2 hpf hhdr]
          exact h
        · rw [Bool.not_eq_true] at h3
          rw [parseStep_other st l h1 h2 h3]
          exact h

theorem parsedOf_imports_nodup (c : Str) : (parsedOf c).imports.Nodup :=
  parse_imports_nodup _ initSt List.nodup_nil

/-! ### Counting: every line lands in exactly one bucket -/

theorem parse_count_aux : ∀ (ls : List Str) (st : ParseSt),
    (ls.foldl parseStep st).header.length + (ls.foldl parseStep st).other.length
      = st.header.length + st.other.length
        + ls.countP (fun l => !isPkgB l && !isImpB l) := by
  intro ls
  induction ls with
  | nil => intro st; simp
  | cons l ls ih =>
    intro st
    simp only [List.foldl_cons, List.countP_cons, ih]
    by_cases h1 : isPkgB l = true
    · rw [parseStep_pkg st l h1]
      simp [h1]
    · rw [Bool.not_eq_true] at h1
      by_cases h2 : isImpB l = true
      · rw [parseStep_imp st l h1 h2]
        simp [h1, h2]
      · rw [Bool.not_eq_true] at h2
        by_cases h3 : (!st.packageFound && isHdrB l) = true
        · have hpf : st.packageFound = false := by
            rcases Bool.and_eq_true .. |>.mp h3 with ⟨ha, _⟩
            simpa using ha
          have hhdr : isHdrB l = true := by
            rcases Bool.and_eq_true .. |>.mp h3 with ⟨_, hb⟩
            exact hb
          rw [parseStep_hdr st l h1 h2 hpf hhdr]
          simp only [List.length_append, List.length_singleton, h1, h2]
          simp
          omega
        · rw [Bool.not_eq_true] at h3
          rw [parseStep_other st l h1 h2 h3]
          simp only [List.length_append, List.length_singleton, h1, h2]
          simp
          omega

theorem countP_partition : ∀ ls : List Str,
    ls.countP (fun l => isPkgB l) + ls.countP (fun l => !isPkgB l && isImpB l)
      + ls.countP (fun l => !isPkgB l && !isImpB l) = ls.length := by
  intro ls
  induction ls with
  | nil => simp
  | cons l ls ih =>
    simp only [List.countP_cons, List.length_cons]
    by_cases h1 : isPkgB l = true <;> by_cases h2 : isImpB l = true <;>
      simp [h1, h2] <;> omega

/-! ### Lemmas about `splitLines` -/

theorem splitLinesAux_join : ∀ (s acc : Str),
    joinL (splitLinesAux s acc) = acc.reverse ++ s := by
  intro s
  induction s with
  | nil =>
    intro acc
    by_cases h : acc.isEmpty = true
    · rw [List.isEmpty_iff] at h
      simp [splitLinesAux, h, joinL]
    · unfold splitLinesAux
      rw [if_neg h]
      simp [joinL]
  | cons c rest ih =>
    intro acc
    unfold splitLinesAux
    by_cases h : c = nl
    · rw [if_pos h]
      simp only [joinL, List.foldr_cons]
      have := ih []
      simp only [List.reverse_nil, List.nil_append] at this
      rw [show (splitLinesAux rest []).foldr (fun a b => a ++ b) [] = joinL (splitLinesAux rest []) from rfl, this]
      simp
    · rw [if_neg h]
      rw [ih (c :: acc)]
      simp

theorem join_splitLines (s : Str) : joinL (splitLines s) = s := by
  simpa using splitLinesAux_join s []

theorem splitLinesAux_cons (c : Char) (rest acc : Str) :
    splitLinesAux (c :: rest) acc
      = if c = nl then (c :: acc).reverse :: splitLinesAux rest []
        else splitLinesAux rest (c :: acc) := rfl

theorem splitLinesAux_wf : ∀ (l : Str), wfLineB l = true → ∀ (s acc : Str),
    splitLinesAux (l ++ s) acc = (acc.reverse ++ l) :: splitLinesAux s []
  | [], h, _, _ => by simp [wfLineB] at h
  | [c], h, s, acc => by
    have hc : c = nl := by simpa [wfLineB] using h
    subst hc
    rw [List.singleton_append, splitLinesAux_cons, if_pos rfl]
    simp
  | c :: d :: rest, h, s, acc => by
    have h2 : (c != nl) = true ∧ wfLineB (d :: rest) = true := by
      simpa [wfLineB] using h
    have hcne : ¬c = nl := by simpa using h2.1
    have ihres := splitLinesAux_wf (d :: rest) h2.2 s (c :: acc)
    rw [List.cons_append, splitLinesAux_cons, if_neg hcne, ihres]
    simp

theorem splitLines_wf_append (l : Str) (hl : wfLineB l = true) (s : Str) :
    splitLines (l ++ s) = l :: splitLines s := by
  unfold splitLines
  rw [splitLinesAux_wf l hl s []]
  simp

theorem splitLines_joinL_append : ∀ (L : List Str),
    (∀ l ∈ L, wfLineB l = true) → ∀ s,
    splitLines (joinL L ++ s) = L ++ splitLines s := by
  intro L
  induction L with
  | nil => intro _ s; simp [joinL]
  | cons l L ih =>
    intro h s
    have hjoin : joinL (l :: L) = l ++ joinL L := rfl
    rw [hjoin, List.append_assoc, splitLines_wf_append l (h l (List.mem_cons_self l L))]
    rw [ih (fun q hq => h q (List.mem_cons_of_mem l hq)) s]
    rfl

/-! ## Claim theorems -/

/-- C2, counterexample: with two package declarations the recorded and
emitted package line is the second one, not the first as claimed. -/
theorem c2_counterexample :
    (parseLines [str "package a\n", str "package b\n"]).packageLine = some (str "package b\n")
    ∧ str "package b\n" ≠ str "package a\n"
    ∧ fixFileStructure (str "package a\npackage b\nx\n") = some (str "package b\n\n\nx\n") := by
  refine ⟨by decide, by decide, by decide⟩

/-- C2 (amended): when several lines carry a package declaration, the LAST
such occurrence is recorded and emitted as the package line; all others are
dropped. -/
theorem c2_amended_last_package_wins (ls : List Str) (c : Str) :
    (parseLines ls).packageLine = (ls.filter (fun l => isPkgB l)).getLast?
    ∧ (∀ pl, ((splitLines c).filter (fun l => isPkgB l)).getLast? = some pl →
        fixFileStructure c
          = some (emit (parsedOf c).header pl (importsOf c) (bodyOf c))) := by
  refine ⟨parseLines_packageLine ls, fun pl h => ?_⟩
  unfold fixFileStructure
  have hpl : (parsedOf c).packageLine = some pl := by
    rw [parsedOf, parseLines_packageLine]
    exact h
  rw [hpl]

/-- C2, witness for the amended theorem at a concrete duplicated-package
file. -/
theorem c2_amended_witness :
    (parseLines [str "package a\n", str "package b\n"]).packageLine
      = ([str "package a\n", str "package b\n"].filter (fun l => isPkgB l)).getLast?
    ∧ fixFileStructure (str "package a\npackage b\nx\n")
        = some (emit (parsedOf (str "package a\npackage b\nx\n")).header (str "package b\n")
            (importsOf (str "package a\npackage b\nx\n"))
            (bodyOf (str "package a\npackage b\nx\n"))) :=
  ⟨(c2_amended_last_package_wins [str "package a\n", str "package b\n"] (str "x\n")).1,
   (c2_amended_last_package_wins [] (str "package a\npackage b\nx\n")).2
     (str "package b\n") (by decide)⟩

/-- C3: only the enumerated literal patterns are rewritten; a body in which
none of the whitelist patterns (nor the doubled-prefix artifact) occurs is
left verbatim — no generic fallback rewrite exists.  Alongside, a concrete
mixed body shows a recognized call rewritten while an unrecognized-tag call
(`Log.d(getTag(), ...)`) is untouched. -/
theorem c3_whitelist_only (b : Str)
    (h0 : occursL (str "HiHiLog") b = false)
    (h1 : ∀ pr ∈ replacePairs, occursL pr.1 b = false) :
    rewriteBody b = b
    ∧ rewriteBody (str "Log.d(TAG, \"a\")\nLog.d(getTag(), \"b\")\n")
        = str "HiLog.d(HiLog.TAG_ISLAND, \"a\")\nLog.d(getTag(), \"b\")\n" := by
  constructor
  · unfold rewriteBody
    rw [replaceL_not_occurs b _ _ h0]
    exact chain_id replacePairs b h1
  · decide

/-- C3, witness: an unrecognized logging call (level `v`, arbitrary tag) is
left byte-identical by the body rewrite. -/
theorem c3_witness :
    rewriteBody (str "Log.v(someTag(), \"x\")\n") = str "Log.v(someTag(), \"x\")\n" :=
  (c3_whitelist_only (str "Log.v(someTag(), \"x\")\n") (by decide) (by decide)).1

/-- C4: for a parsed file whose import set contains the old logging import
and whose body contains at least one recognized call pattern, the final
list of imports contains the new logging import and not the old one —
even when the body also carries the doubled-prefix artifact, since the
pattern occurrence survives the artifact collapse. -/
theorem c4_import_hygiene (c : Str)
    (_hold : oldImport ∈ (parsedOf c).imports)
    (hpat : ∃ pr ∈ replacePairs, occursL pr.1 (joinL (parsedOf c).other) = true) :
    newImport ∈ importsOf c ∧ oldImport ∉ importsOf c := by
  obtain ⟨pr, hmem, hoccp⟩ := hpat
  have hside : ∀ q ∈ replacePairs, 7 ≤ q.1.length
      ∧ tailsOk (str "HiHiLog") q.1 = true
      ∧ startsWithL ((str "HiHiLog").drop 1) q.1 = false
      ∧ startsWithL ((str "HiHiLog").drop 2) q.1 = false
      ∧ startsWithL ((str "HiHiLog").drop 3) q.1 = false
      ∧ startsWithL ((str "HiHiLog").drop 5) q.1 = false
      ∧ startsWithL ((str "HiHiLog").drop 6) q.1 = false
      ∧ startsWithL (str "Log") q.1 = true := by decide
  obtain ⟨h1, h2, h3, h4, h5, h6, h7, h8⟩ := hside pr hmem
  have hsurv : occursL pr.1
      (replaceL (joinL (parsedOf c).other) (str "HiHiLog") (str "HiLog")) = true :=
    replaceHH_survives pr.1 h1 h2 h3 h4 h5 h6 h7 h8 _ hoccp
  have hocc : occursL hiDot (bodyOf c) = true := by
    unfold bodyOf rewriteBody
    exact chain_fires hiDot replacePairs _ (by decide) ⟨pr, hmem, hsurv⟩
  exact ⟨mem_reconcile_new hocc, not_mem_reconcile_old _ (parsedOf_imports_nodup c)⟩

/-- C4, witness at a file whose body carries both the doubled-prefix
artifact and a recognized pattern: old import present, pattern in the
body, import hygiene still holds. -/
theorem c4_witness :
    newImport ∈ importsOf
        (str "package a\nimport android.util.Log\nHiHiLog.d(x)\nLog.d(TAG, \"h\")\n")
    ∧ oldImport ∉ importsOf
        (str "package a\nimport android.util.Log\nHiHiLog.d(x)\nLog.d(TAG, \"h\")\n") :=
  c4_import_hygiene
    (str "package a\nimport android.util.Log\nHiHiLog.d(x)\nLog.d(TAG, \"h\")\n")
    (by decide) ⟨(str "Log.d(TAG,", str "HiLog.d(HiLog.TAG_ISLAND,"), by decide⟩

/-- C5: whenever a package line was found the output is emitted in the fixed
order — header verbatim, package line (newline-terminated), blank line,
imports each newline-terminated, blank line, rewritten body — and the
emitted import list is lexically sorted. -/
theorem c5_ordering (c : Str) (pkg : Str) (h : (parsedOf c).packageLine = some pkg) :
    fixFileStructure c
      = some (joinL (parsedOf c).header ++ pkg
          ++ (if pkg.getLast? = some nl then [] else [nl]) ++ [nl]
          ++ joinL ((importsOf c).map (fun i => i ++ [nl])) ++ [nl] ++ bodyOf c)
    ∧ (importsOf c).Pairwise (fun a b => lexLe a b = true) := by
  constructor
  · unfold fixFileStructure
    rw [h]
    rfl
  · unfold importsOf reconcileImports
    exact insertionSort_sorted _

/-- C5, witness: a file whose import appears before its package line is
re-emitted in the canonical order. -/
theorem c5_witness :
    fixFileStructure (str "import b\npackage a\nx\n")
      = some (joinL (parsedOf (str "import b\npackage a\nx\n")).header ++ str "package a\n"
          ++ (if (str "package a\n").getLast? = some nl then [] else [nl]) ++ [nl]
          ++ joinL ((importsOf (str "import b\npackage a\nx\n")).map (fun i => i ++ [nl]))
          ++ [nl] ++ bodyOf (str "import b\npackage a\nx\n"))
    ∧ (importsOf (str "import b\npackage a\nx\n")).Pairwise (fun a b => lexLe a b = true) :=
  c5_ordering (str "import b\npackage a\nx\n") (str "package a\n") (by decide)

/-- C6: the end-to-end example — `Log.d(TAG, "hello")` with the old import
and a package line becomes `HiLog.d(HiLog.TAG_ISLAND, "hello")`, the old
logging import is gone and the new one is in the sorted import block. -/
theorem c6_end_to_end :
    fixFileStructure (str "package com.example\nimport android.util.Log\nLog.d(TAG, \"hello\")\n")
      = some (str "package com.example\n\nimport com.coni.hyperisle.util.HiLog\n\nHiLog.d(HiLog.TAG_ISLAND, \"hello\")\n")
    ∧ newImport ∈ importsOf (str "package com.example\nimport android.util.Log\nLog.d(TAG, \"hello\")\n")
    ∧ oldImport ∉ importsOf (str "package com.example\nimport android.util.Log\nLog.d(TAG, \"hello\")\n")
    ∧ bodyOf (str "package com.example\nimport android.util.Log\nLog.d(TAG, \"hello\")\n")
        = str "HiLog.d(HiLog.TAG_ISLAND, \"hello\")\n" := by
  refine ⟨by decide, by decide, by decide, by decide⟩

/-- C7: a file none of whose lines is a package declaration triggers no
write-back (the transform returns without output, leaving the file
byte-identical), and a missing path is a silent no-op. -/
theorem c7_no_op (c : Str) (h : ∀ l ∈ splitLines c, isPkgB l = false) :
    fixFileStructure c = none ∧ fix_file none = none := by
  constructor
  · unfold fixFileStructure
    have hnone : (parsedOf c).packageLine = none := by
      rw [parsedOf, parseLines_packageLine]
      have : (splitLines c).filter (fun l => isPkgB l) = [] := by
        rw [List.filter_eq_nil_iff]
        intro a ha
        simp [h a ha]
      rw [this]
      rfl
    rw [hnone]
  · rfl

/-- C7, witness: a comments-and-blank-lines-only file is untouched. -/
theorem c7_witness :
    fixFileStructure (str "// only comments\n\n/* block */\n") = none
    ∧ fix_file none = none :=
  c7_no_op (str "// only comments\n\n/* block */\n") (by decide)

/-- C8: every input line lands in exactly one of the four buckets (the
bucket sizes sum to the number of lines, imports counted as classification
events), and once a package line has been seen, any later non-package
non-import line — comments and blanks included — is appended to the body
bucket and never to the header bucket. -/
theorem c8_classification :
    (∀ ls : List Str,
      (parseLines ls).header.length + (parseLines ls).other.length
        + ls.countP (fun l => isPkgB l) + ls.countP (fun l => !isPkgB l && isImpB l)
        = ls.length)
    ∧ (∀ (pre : List Str) (l : Str), (∃ p ∈ pre, isPkgB p = true) →
        isPkgB l = false → isImpB l = false →
        (parseLines (pre ++ [l])).other = (parseLines pre).other ++ [l]
        ∧ (parseLines (pre ++ [l])).header = (parseLines pre).header) := by
  constructor
  · intro ls
    have h1 := parse_count_aux ls initSt
    have h2 := countP_partition ls
    unfold parseLines
    have e1 : initSt.header.length = 0 := rfl
    have e2 : initSt.other.length = 0 := rfl
    omega
  · intro pre l hex h1 h2
    have hpf : (pre.foldl parseStep initSt).packageFound = true := by
      rw [foldl_packageFound]
      obtain ⟨p, hp, hpk⟩ := hex
      have : pre.any isPkgB = true := List.any_eq_true.mpr ⟨p, hp, hpk⟩
      simp [initSt, this]
    unfold parseLines
    rw [List.foldl_append]
    simp only [List.foldl_cons, List.foldl_nil]
    rw [parseStep_other _ l h1 h2 (by simp [hpf])]
    exact ⟨rfl, rfl⟩

/-- C8, witness: a comment line after the package line goes to the body
bucket, not the header. -/
theorem c8_witness :
    (parseLines ([str "package a\n"] ++ [str "// late comment\n"])).other
        = (parseLines [str "package a\n"]).other ++ [str "// late comment\n"]
    ∧ (parseLines ([str "package a\n"] ++ [str "// late comment\n"])).header
        = (parseLines [str "package a\n"]).header :=
  c8_classification.2 [str "package a\n"] (str "// late comment\n")
    ⟨str "package a\n", by decide, by decide⟩ (by decide) (by decide)

/-- C9: the old logging import is never in the final import list — it is
removed unconditionally, whether or not any call pattern was rewritten and
even if the body keeps old-API `Log.` calls (the conjunct shows such a file:
body unchanged, import nevertheless gone). -/
theorem c9_old_import_removed (c : Str) :
    oldImport ∉ importsOf c
    ∧ fixFileStructure (str "package a\nimport android.util.Log\nLog.x(1)\n")
        = some (str "package a\n\n\nLog.x(1)\n") :=
  ⟨not_mem_reconcile_old _ (parsedOf_imports_nodup c), by decide⟩

/-- C9, witness: the general statement applied to the unrewritten-body
file. -/
theorem c9_witness :
    oldImport ∉ importsOf (str "package a\nimport android.util.Log\nLog.x(1)\n") :=
  (c9_old_import_removed (str "package a\nimport android.util.Log\nLog.x(1)\n")).1

/-- C10: whenever a package line is found a write-back happens (no change
detection), and the new logging import is added whenever the substring
`HiLog.` occurs anywhere in the rewritten body — comments and strings
included. -/
theorem c10_always_write (c : Str) (pl : Str)
    (h : (parsedOf c).packageLine = some pl) :
    (fixFileStructure c).isSome = true
    ∧ (occursL hiDot (bodyOf c) = true → newImport ∈ importsOf c) := by
  constructor
  · unfold fixFileStructure
    rw [h]
    rfl
  · intro hocc
    exact mem_reconcile_new hocc

/-- C10, witness: a file whose only `HiLog.` occurrence is inside a comment
still gets the import added, and the write-back happens. -/
theorem c10_witness :
    (fixFileStructure (str "package a\n// see HiLog. docs\n")).isSome = true
    ∧ newImport ∈ importsOf (str "package a\n// see HiLog. docs\n") :=
  ⟨(c10_always_write (str "package a\n// see HiLog. docs\n") (str "package a\n") (by decide)).1,
   (c10_always_write (str "package a\n// see HiLog. docs\n") (str "package a\n") (by decide)).2
     (by decide)⟩

/-- C1, counterexample: running the transform twice does NOT reproduce the
first run's bytes — already on the minimal file `package a\n` the second run
emits two extra blank lines. -/
theorem c1_counterexample :
    fixFileStructure (str "package a\n") = some (str "package a\n\n\n")
    ∧ fixFileStructure (str "package a\n\n\n") = some (str "package a\n\n\n\n\n")
    ∧ (str "package a\n\n\n\n\n" : Str) ≠ str "package a\n\n\n" := by
  refine ⟨by decide, by decide, by decide⟩

/-- A well-formed line ends with the newline character. -/
theorem wfLineB_getLast : ∀ l : Str, wfLineB l = true → l.getLast? = some nl
  | [], h => by simp [wfLineB] at h
  | [c], h => by
    have hc : c = nl := by simpa [wfLineB] using h
    simp [hc]
  | c :: d :: rest, h => by
    have heq : wfLineB (c :: d :: rest) = ((c != nl) && wfLineB (d :: rest)) := rfl
    rw [heq, Bool.and_eq_true] at h
    rw [List.getLast?_cons_cons]
    exact wfLineB_getLast (d :: rest) h.2

/-- When the old import is absent, the new one already present whenever it
would be added, and the list already sorted, reconciliation is the
identity. -/
theorem reconcile_id (imps : List Str) (b : Str)
    (h1 : oldImport ∉ imps)
    (h2 : occursL hiDot b = true → newImport ∈ imps)
    (h3 : insertionSort imps = imps) :
    reconcileImports imps b = imps := by
  simp only [reconcileImports]
  rw [if_neg h1]
  by_cases hocc : occursL hiDot b = true
  · rw [if_neg (by simp [h2 hocc])]
    exact h3
  · rw [if_neg (by simp [hocc])]
    exact h3

/-- Unfolding of the transform once the package line is known. -/
theorem fixFileStructure_eq (c : Str) (pl : Str)
    (h : (parsedOf c).packageLine = some pl) :
    fixFileStructure c = some (emit (parsedOf c).header pl (importsOf c) (bodyOf c)) := by
  unfold fixFileStructure
  rw [h]

/-- C1 (amended): the transform is NOT byte-idempotent.  Re-running it on a
first run's output (header block, package line, blank line, sorted imports,
blank line, body) reclassifies the two blank separator lines as body content
and emits fresh separators, so the second run's bytes equal the first run's
bytes with two extra blank lines inserted between the import block and the
body; nothing else changes (in particular the duplicated-prefix artifact
does not grow) provided the once-rewritten body is a fixed point of the
symbol rewrite, as it is after a normal first run. -/
theorem c1_amended_second_run (hdr : List Str) (pkg : Str) (I : List Str) (B : Str)
    (hhdr : ∀ l ∈ hdr, wfLineB l = true ∧ isPkgB l = false ∧ isImpB l = false
        ∧ isHdrB l = true)
    (hpkg : wfLineB pkg = true) (hpkg2 : isPkgB pkg = true)
    (himps : ∀ i ∈ I, wfLineB (i ++ [nl]) = true ∧ isPkgB (i ++ [nl]) = false
        ∧ isImpB (i ++ [nl]) = true ∧ stripL (i ++ [nl]) = i)
    (hnd : I.Nodup)
    (hB : ∀ l ∈ splitLines B, isPkgB l = false ∧ isImpB l = false)
    (hold : oldImport ∉ I)
    (hnew : occursL hiDot (nl :: nl :: B) = true → newImport ∈ I)
    (hfix : rewriteBody (nl :: nl :: B) = nl :: nl :: B)
    (hsort : insertionSort I = I) :
    fixFileStructure
        (joinL hdr ++ pkg ++ [nl] ++ joinL (I.map (fun i => i ++ [nl])) ++ [nl] ++ B)
      = some (joinL hdr ++ pkg ++ [nl] ++ joinL (I.map (fun i => i ++ [nl])) ++ [nl]
          ++ (nl :: nl :: B)) := by
  have hw_hdr : ∀ l ∈ hdr, wfLineB l = true := fun l hl => (hhdr l hl).1
  have hconds : ∀ l ∈ hdr, isPkgB l = false ∧ isImpB l = false ∧ isHdrB l = true :=
    fun l hl => ⟨(hhdr l hl).2.1, (hhdr l hl).2.2.1, (hhdr l hl).2.2.2⟩
  have hw_imap : ∀ l ∈ I.map (fun i => i ++ [nl]), wfLineB l = true := by
    intro l hl
    obtain ⟨i, hi, rfl⟩ := List.mem_map.mp hl
    exact (himps i hi).1
  have hwnl : wfLineB [nl] = true := by decide
  have hsplit :
      splitLines (joinL hdr ++ (pkg ++ ([nl] ++ (joinL (I.map (fun i => i ++ [nl]))
          ++ ([nl] ++ B)))))
        = hdr ++ pkg :: [nl] :: (I.map (fun i => i ++ [nl]) ++ [nl] :: splitLines B) := by
    rw [splitLines_joinL_append hdr hw_hdr]
    rw [splitLines_wf_append pkg hpkg]
    rw [splitLines_wf_append [nl] hwnl]
    rw [splitLines_joinL_append (I.map (fun i => i ++ [nl])) hw_imap]
    rw [splitLines_wf_append [nl] hwnl]
  have e0 : List.foldl parseStep initSt hdr = ⟨none, [], [], hdr, false⟩ := by
    rw [foldl_header_lines hdr initSt rfl hconds]
    rfl
  have e1 : parseStep (⟨none, [], [], hdr, false⟩ : ParseSt) pkg
      = ⟨some pkg, [], [], hdr, true⟩ := by
    rw [parseStep_pkg _ pkg hpkg2]
  have e2 : parseStep (⟨some pkg, [], [], hdr, true⟩ : ParseSt) [nl]
      = ⟨some pkg, [], [[nl]], hdr, true⟩ := by
    rw [parseStep_other (⟨some pkg, [], [], hdr, true⟩ : ParseSt) [nl]
      (by decide) (by decide) rfl]
    rfl
  have hIfold : I.foldl (fun acc i => insertSet i acc) ([] : List Str) = I := by
    rw [insertSet_foldl_nodup I [] hnd (fun i _ => List.not_mem_nil i)]
    exact List.nil_append I
  have e3 : List.foldl parseStep (⟨some pkg, [], [[nl]], hdr, true⟩ : ParseSt)
        (I.map (fun i => i ++ [nl]))
      = ⟨some pkg, I, [[nl]], hdr, true⟩ := by
    rw [foldl_import_lines I _
      (fun i hi => ⟨(himps i hi).2.1, (himps i hi).2.2.1, (himps i hi).2.2.2⟩)]
    exact congrArg (fun x => (⟨some pkg, x, [[nl]], hdr, true⟩ : ParseSt)) hIfold
  have e4 : parseStep (⟨some pkg, I, [[nl]], hdr, true⟩ : ParseSt) [nl]
      = ⟨some pkg, I, [[nl], [nl]], hdr, true⟩ := by
    rw [parseStep_other (⟨some pkg, I, [[nl]], hdr, true⟩ : ParseSt) [nl]
      (by decide) (by decide) rfl]
    rfl
  have e5 : List.foldl parseStep (⟨some pkg, I, [[nl], [nl]], hdr, true⟩ : ParseSt)
        (splitLines B)
      = ⟨some pkg, I, [[nl], [nl]] ++ splitLines B, hdr, true⟩ := by
    rw [foldl_body_lines (splitLines B) _ rfl hB]
  simp only [List.append_assoc]
  have hparse : parsedOf (joinL hdr ++ (pkg ++ ([nl] ++ (joinL (I.map (fun i => i ++ [nl]))
        ++ ([nl] ++ B)))))
      = ⟨some pkg, I, [[nl], [nl]] ++ splitLines B, hdr, true⟩ := by
    unfold parsedOf parseLines
    rw [hsplit, List.foldl_append, e0, List.foldl_cons, e1, List.foldl_cons, e2,
      List.foldl_append, e3, List.foldl_cons, e4, e5]
  have hjoin : joinL ((⟨some pkg, I, [[nl], [nl]] ++ splitLines B, hdr, true⟩ : ParseSt).other)
      = nl :: nl :: B := by
    show ([nl] ++ ([nl] ++ joinL (splitLines B)) : Str) = nl :: nl :: B
    rw [join_splitLines B]
    rfl
  have hbody : bodyOf (joinL hdr ++ (pkg ++ ([nl] ++ (joinL (I.map (fun i => i ++ [nl]))
        ++ ([nl] ++ B)))))
      = nl :: nl :: B := by
    unfold bodyOf
    rw [hparse, hjoin]
    exact hfix
  have himports : importsOf (joinL hdr ++ (pkg ++ ([nl] ++ (joinL (I.map (fun i => i ++ [nl]))
        ++ ([nl] ++ B)))))
      = I := by
    unfold importsOf
    rw [hparse, hbody]
    exact reconcile_id I (nl :: nl :: B) hold hnew hsort
  rw [fixFileStructure_eq _ pkg (by rw [hparse])]
  rw [hparse, himports, hbody]
  show some (joinL hdr ++ pkg ++ (if pkg.getLast? = some nl then [] else [nl]) ++ [nl]
      ++ joinL (I.map (fun i => i ++ [nl])) ++ [nl] ++ (nl :: nl :: B)) = _
  rw [if_pos (wfLineB_getLast pkg hpkg)]
  simp [List.append_assoc]

/-- C1, witness for the amended theorem: a concrete first-run-shaped file
(header comment, package line, blank, one import, blank, body) on which the
second run inserts exactly the two extra blank lines. -/
theorem c1_amended_witness :
    fixFileStructure
        (joinL [str "// c\n"] ++ str "package a\n" ++ [nl]
          ++ joinL ([str "import b"].map (fun i => i ++ [nl])) ++ [nl] ++ str "x\n")
      = some (joinL [str "// c\n"] ++ str "package a\n" ++ [nl]
          ++ joinL ([str "import b"].map (fun i => i ++ [nl])) ++ [nl]
          ++ (nl :: nl :: str "x\n")) :=
  c1_amended_second_run [str "// c\n"] (str "package a\n") [str "import b"] (str "x\n")
    (by decide) (by decide) (by decide) (by decide) (by decide) (by decide) (by decide)
    (by decide) (by decide) (by decide)
